import Mathlib

/-!
# Barnsley fractal demo (`progs/demos/Fractals/fractals.c`)

A shallow embedding of the demo's three pieces of logic:

* `readConfigFile` : the stationary-point computation done for every
  transformation read from the definition file;
* `draw_level`     : the recursive expansion that issues the `glVertex2f` calls;
* `Key`, `Special`, `Reshape` : the input handlers that mutate the globals
  `num_levels`, `xwin`, `ywin`, `scale_factor`.

Conventions.  The C `double` / `float` quantities are modelled by exact
rationals `ℚ` (the properties stated over `ℚ` are statements of exact arithmetic;
rounding, overflow to infinity and underflow are outside that model).  The loop body
of `readConfigFile` is modelled a second time in IEEE 754 `double` arithmetic
(`readConfigFile_entry_double`), for the branch it takes on the computed determinant.
The C `int` globals are modelled by `Int`; `unsigned char` keys by `Nat`.  The global
array `affine` together with its length `num_trans` is a `List AffineTrans`.
-/

namespace Fractals

/-! ## Data model -/

/-- The C struct `AffineTrans`: matrix `a00 a01 a10 a11`, constant vector `b0 b1`
and the coordinates `statx staty` of the stationary point. -/
structure AffineTrans where
  a00 : ℚ
  a01 : ℚ
  a10 : ℚ
  a11 : ℚ
  b0 : ℚ
  b1 : ℚ
  statx : ℚ
  staty : ℚ
deriving DecidableEq

/-- One definition line of the configuration file after
`sscanf ( inputline, "%lf %lf %lf %lf %lf %lf", ... )`: the six numbers
`a00 a01 a10 a11 b0 b1` in file order. -/
structure ConfigLine where
  a00 : ℚ
  a01 : ℚ
  a10 : ℚ
  a11 : ℚ
  b0 : ℚ
  b1 : ℚ
deriving DecidableEq

/-! ## `readConfigFile` -/

/-- The local `determ` of the loop body of `readConfigFile`:
`m00 * m11 - m01 * m10` with `m00 = 1.0 - a00`, `m01 = - a01`, `m10 = - a10`,
`m11 = 1.0 - a11` (the matrix "I" minus "A"). -/
def determ (c : ConfigLine) : ℚ :=
  let m00 := 1 - c.a00
  let m01 := - c.a01
  let m10 := - c.a10
  let m11 := 1 - c.a11
  m00 * m11 - m01 * m10

/-- The body of the `for` loop of `readConfigFile` for one parsed line: store the
six coefficients, then compute the stationary point, by the two quotients when
`fabs ( determ ) > 1.e-6` and as `0.0, 0.0` otherwise. -/
def readConfigFile_entry (c : ConfigLine) : AffineTrans :=
  let m00 := 1 - c.a00
  let m01 := - c.a01
  let m10 := - c.a10
  let m11 := 1 - c.a11
  let determ := m00 * m11 - m01 * m10
  if |determ| > 1 / 1000000 then
    { a00 := c.a00, a01 := c.a01, a10 := c.a10, a11 := c.a11, b0 := c.b0, b1 := c.b1,
      statx := (m11 * c.b0 - m01 * c.b1) / determ,
      staty := (-m10 * c.b0 + m00 * c.b1) / determ }
  else
    { a00 := c.a00, a01 := c.a01, a10 := c.a10, a11 := c.a11, b0 := c.b0, b1 := c.b1,
      statx := 0, staty := 0 }

/-- The transformation loop of `readConfigFile`: `num_trans` is the number of
definition lines, and entry `i` of the array `affine` is computed from line `i`.
The file handling in front of the loop (`fopen`, `fgets`, `sscanf`) is not modelled:
the argument is the list of already parsed definition lines. -/
def readConfigFile (lines : List ConfigLine) : List AffineTrans :=
  lines.map readConfigFile_entry

/-! ## `readConfigFile` in `double` arithmetic

The test `fabs ( determ ) > 1.e-6` is taken on the `double` value the program has
computed, so for the branch the loop body is also modelled with IEEE 754 binary64
arithmetic: round to nearest, ties to even, every operation rounded on its own (no
fused multiply-add, no extended precision).  Finite `double`s and the exact results
of single operations are dyadic rationals, kept as a pair of integers; the sign of a
zero is not recorded.  A result that leaves the finite range is `none` (the program
goes on with an infinity or a NaN there, which is not modelled). -/

/-- The dyadic rational `mant * 2 ^ exp`: a finite `double`, or the exact result of
one arithmetic operation on two of them. -/
structure Dyadic where
  mant : Int
  exp : Int
deriving DecidableEq

/-- The rational number a dyadic stands for. -/
def Dyadic.toRat (x : Dyadic) : ℚ := x.mant * (2 : ℚ) ^ x.exp

/-- Unary minus (exact on `double`s). -/
def Dyadic.neg (x : Dyadic) : Dyadic := ⟨-x.mant, x.exp⟩

/-- The function `fabs` (exact on `double`s). -/
def Dyadic.abs (x : Dyadic) : Dyadic := ⟨|x.mant|, x.exp⟩

/-- The exact product. -/
def Dyadic.mul (x y : Dyadic) : Dyadic := ⟨x.mant * y.mant, x.exp + y.exp⟩

/-- The mantissa of `x` over the exponent `e ≤ x.exp`. -/
def Dyadic.alignedMant (x : Dyadic) (e : Int) : Int :=
  x.mant * ((2 ^ (x.exp - e).toNat : Nat) : Int)

/-- The exact sum. -/
def Dyadic.add (x y : Dyadic) : Dyadic :=
  ⟨x.alignedMant (min x.exp y.exp) + y.alignedMant (min x.exp y.exp), min x.exp y.exp⟩

/-- The exact difference. -/
def Dyadic.sub (x y : Dyadic) : Dyadic :=
  ⟨x.alignedMant (min x.exp y.exp) - y.alignedMant (min x.exp y.exp), min x.exp y.exp⟩

/-- The comparison `x < y`. -/
def Dyadic.lt (x y : Dyadic) : Prop :=
  x.alignedMant (min x.exp y.exp) < y.alignedMant (min x.exp y.exp)

instance (x y : Dyadic) : Decidable (x.lt y) :=
  inferInstanceAs (Decidable (_ < _))

/-- Bit length by repeated halving, at most `fuel` times. -/
def bitLengthAux : Nat → Nat → Nat
  | 0, _ => 0
  | fuel + 1, n => if n = 0 then 0 else bitLengthAux fuel (n / 2) + 1

/-- The number of binary digits of `n`: the least `k` with `n < 2 ^ k`. -/
def bitLength (n : Nat) : Nat := bitLengthAux n n

/-- The integer nearest to `n / 2 ^ k`, the even one of the two on a tie. -/
def roundNearestEven (n k : Nat) : Nat :=
  let q := n / 2 ^ k
  let r := n % 2 ^ k
  if 2 * r < 2 ^ k then q
  else if 2 * r > 2 ^ k then q + 1
  else if q % 2 = 0 then q else q + 1

/-- Rounding of an exact result to `double`: 53 significant bits, the last kept bit
not below `2 ^ (-1074)` (subnormal numbers), round to nearest with ties to even, and
`none` when the rounded magnitude reaches `2 ^ 1024` (overflow). -/
def round64 (x : Dyadic) : Option Dyadic :=
  let n := x.mant.natAbs
  let e : Int := max (x.exp + (bitLength n : Int) - 53) (-1074)
  let y : Dyadic :=
    if e ≤ x.exp then x
    else ⟨x.mant.sign * (roundNearestEven n (e - x.exp).toNat : Int), e⟩
  if (bitLength y.mant.natAbs : Int) + y.exp ≤ 1024 then some y else none

/-- The `double` quotient `x / y`: the exact quotient is cut after at least 64
significant bits, a last bit records whether anything non-zero was cut off, and the
result is rounded by `round64`.  Division by zero gives no finite value. -/
def div64 (x y : Dyadic) : Option Dyadic :=
  if y.mant = 0 then none
  else
    let k := bitLength y.mant.natAbs + 64
    let q := x.mant.natAbs * 2 ^ k / y.mant.natAbs
    let r := x.mant.natAbs * 2 ^ k % y.mant.natAbs
    let n := 2 * q + (if r = 0 then 0 else 1)
    round64 ⟨x.mant.sign * y.mant.sign * (n : Int), x.exp - y.exp - (k : Int) - 1⟩

/-- The `double` constant `1.e-6`, which is `4722366482869645 * 2 ^ (-72)`, the
`double` nearest to `10 ^ (-6)`. -/
def c1e6 : Dyadic := ⟨4722366482869645, -72⟩

/-- One definition line after `sscanf`, as the six `double`s it stores. -/
structure ConfigLine64 where
  a00 : Dyadic
  a01 : Dyadic
  a10 : Dyadic
  a11 : Dyadic
  b0 : Dyadic
  b1 : Dyadic
deriving DecidableEq

/-- The C struct `AffineTrans` with `double` fields. -/
structure AffineTrans64 where
  a00 : Dyadic
  a01 : Dyadic
  a10 : Dyadic
  a11 : Dyadic
  b0 : Dyadic
  b1 : Dyadic
  statx : Dyadic
  staty : Dyadic
deriving DecidableEq

/-- The local `determ` as the program computes it: `m00 = 1.0 - a00`, `m01 = - a01`,
`m10 = - a10`, `m11 = 1.0 - a11`, then `m00 * m11 - m01 * m10`, each subtraction and
each product rounded. -/
def determ_double (c : ConfigLine64) : Option Dyadic := do
  let m00 ← round64 (Dyadic.sub ⟨1, 0⟩ c.a00)
  let m01 := c.a01.neg
  let m10 := c.a10.neg
  let m11 ← round64 (Dyadic.sub ⟨1, 0⟩ c.a11)
  let p ← round64 (m00.mul m11)
  let q ← round64 (m01.mul m10)
  round64 (p.sub q)

/-- The body of the `for` loop of `readConfigFile` for one parsed line, in `double`
arithmetic and in source order. -/
def readConfigFile_entry_double (c : ConfigLine64) : Option AffineTrans64 := do
  let m00 ← round64 (Dyadic.sub ⟨1, 0⟩ c.a00)
  let m01 := c.a01.neg
  let m10 := c.a10.neg
  let m11 ← round64 (Dyadic.sub ⟨1, 0⟩ c.a11)
  let p ← round64 (m00.mul m11)
  let q ← round64 (m01.mul m10)
  let determ ← round64 (p.sub q)
  if c1e6.lt determ.abs then
    let u ← round64 (m11.mul c.b0)
    let v ← round64 (m01.mul c.b1)
    let nx ← round64 (u.sub v)
    let statx ← div64 nx determ
    let u' ← round64 (m10.neg.mul c.b0)
    let v' ← round64 (m00.mul c.b1)
    let ny ← round64 (u'.add v')
    let staty ← div64 ny determ
    some { a00 := c.a00, a01 := c.a01, a10 := c.a10, a11 := c.a11, b0 := c.b0, b1 := c.b1,
           statx := statx, staty := staty }
  else
    some { a00 := c.a00, a01 := c.a01, a10 := c.a10, a11 := c.a11, b0 := c.b0, b1 := c.b1,
           statx := ⟨0, 0⟩, staty := ⟨0, 0⟩ }

/-- What one run of `draw_level` does, in program order.  `enter num` records an
entry into `draw_level` with first argument `num`; `point x y` records one
evaluation of a transformed stationary point (the initialisation of `x0, y0` or
the computation of `x1, y1` in the loop); `vertex x y` records one call
`glVertex2f ( x, y )`. -/
inductive Event where
  | enter (num : Nat)
  | point (x y : ℚ)
  | vertex (x y : ℚ)
deriving DecidableEq

/-- The loop `for ( i = 1; i < num_trans; i++ )` of the branch `num == 0`, run over
the remaining array entries `affine[1], ..., affine[num_trans-1]` with the loop
state `x0, y0`: compute `x1, y1`, call `glVertex2f ( x0, y0 )` and
`glVertex2f ( x1, y1 )`, then `x0 = x1 ; y0 = y1`. -/
def draw_level_loop (m00 m01 m10 m11 n0 n1 : ℚ) : ℚ → ℚ → List AffineTrans → List Event
  | _, _, [] => []
  | x0, y0, t :: rest =>
    let x1 := m00 * t.statx + m01 * t.staty + n0
    let y1 := m10 * t.statx + m11 * t.staty + n1
    Event.point x1 y1 :: Event.vertex x0 y0 :: Event.vertex x1 y1 ::
      draw_level_loop m00 m01 m10 m11 n0 n1 x1 y1 rest

/-- The function `draw_level ( num, m00, m01, m10, m11, n0, n1 )` over the global
array `affine`, for `num ≥ 0` (the only values `Display` passes, see
`num_levels_nonneg`; for a negative `num` the C recursion does not end).
With an empty array the C code reads `affine[0]` out of bounds and its loop body
never runs; the model records the entry only. -/
def draw_level (affine : List AffineTrans) : Nat → ℚ → ℚ → ℚ → ℚ → ℚ → ℚ → List Event
  | 0, m00, m01, m10, m11, n0, n1 =>
    match affine with
    | [] => [Event.enter 0]
    | a0 :: rest =>
      let x0 := m00 * a0.statx + m01 * a0.staty + n0
      let y0 := m10 * a0.statx + m11 * a0.staty + n1
      Event.enter 0 :: Event.point x0 y0 :: draw_level_loop m00 m01 m10 m11 n0 n1 x0 y0 rest
  | num + 1, m00, m01, m10, m11, n0, n1 =>
    Event.enter (num + 1) :: affine.flatMap fun t =>
      draw_level affine num
        (m00 * t.a00 + m01 * t.a10) (m00 * t.a01 + m01 * t.a11)
        (m10 * t.a00 + m11 * t.a10) (m10 * t.a01 + m11 * t.a11)
        (m00 * t.b0 + m01 * t.b1 + n0) (m10 * t.b0 + m11 * t.b1 + n1)

/-! ### Observations on a run of `draw_level` -/

/-- The arguments of the `glVertex2f` calls of a run, in call order. -/
def vertices : List Event → List (ℚ × ℚ)
  | [] => []
  | Event.vertex x y :: es => (x, y) :: vertices es
  | _ :: es => vertices es

/-- The transformed stationary points evaluated during a run, in evaluation order. -/
def points : List Event → List (ℚ × ℚ)
  | [] => []
  | Event.point x y :: es => (x, y) :: points es
  | _ :: es => points es

/-- The number of entries into the branch `num == 0` during a run. -/
def leafCount : List Event → Nat
  | [] => 0
  | Event.enter 0 :: es => leafCount es + 1
  | _ :: es => leafCount es

/-- The line segments that `glBegin ( GL_LINES )` (as used by `Display`) makes of
a vertex sequence: vertices `2k` and `2k+1` form segment `k`. -/
def gl_lines : List (ℚ × ℚ) → List ((ℚ × ℚ) × (ℚ × ℚ))
  | p :: q :: rest => (p, q) :: gl_lines rest
  | _ => []

/-- The line segments drawn by a run. -/
def segments (es : List Event) : List ((ℚ × ℚ) × (ℚ × ℚ)) :=
  gl_lines (vertices es)

/-- The affine map `p ↦ M p + n` with `M = (m00 m01 ; m10 m11)`, `n = (n0, n1)`. -/
def applyMN (m00 m01 m10 m11 n0 n1 : ℚ) (p : ℚ × ℚ) : ℚ × ℚ :=
  (m00 * p.1 + m01 * p.2 + n0, m10 * p.1 + m11 * p.2 + n1)

/-- The transformation `r ↦ A r + b` defined by an array entry. -/
def AffineTrans.apply (t : AffineTrans) (p : ℚ × ℚ) : ℚ × ℚ :=
  (t.a00 * p.1 + t.a01 * p.2 + t.b0, t.a10 * p.1 + t.a11 * p.2 + t.b1)

/-- The stored stationary point of an array entry. -/
def AffineTrans.stat (t : AffineTrans) : ℚ × ℚ := (t.statx, t.staty)

/-- All index tuples `(i1, ..., id)` over the array, given by the entries they
select, in lexicographic order of `(i1, ..., id)`. -/
def words (affine : List AffineTrans) : Nat → List (List AffineTrans)
  | 0 => [[]]
  | d + 1 => affine.flatMap fun t => (words affine d).map fun w => t :: w

/-- The composite `T_i1 ∘ ... ∘ T_id` of the transformations of a tuple, applied
to a point (the last transformation of the tuple acts first). -/
def applyWord (w : List AffineTrans) (p : ℚ × ℚ) : ℚ × ℚ :=
  w.foldr AffineTrans.apply p

/-- The vertex sequence that draws the open polyline through `pts` as separate
segments: `p0, p1, p1, p2, ..., p(k-1), pk`. -/
def polyVertices : List (ℚ × ℚ) → List (ℚ × ℚ)
  | p :: q :: rest => p :: q :: polyVertices (q :: rest)
  | _ => []

/-- The open polyline through `pts`: segment `k` joins point `k` to point `k+1`;
the last point is not joined back to the first. -/
def polyline (pts : List (ℚ × ℚ)) : List ((ℚ × ℚ) × (ℚ × ℚ)) :=
  pts.zip pts.tail

/-- The points of the leaf reached through the index tuple `w` under the outer map
`M, n`: the image of every stationary point, in array order, under
`(M, n) ∘ T_i1 ∘ ... ∘ T_id`. -/
def leafPoints (affine : List AffineTrans) (m00 m01 m10 m11 n0 n1 : ℚ)
    (w : List AffineTrans) : List (ℚ × ℚ) :=
  affine.map fun t => applyMN m00 m01 m10 m11 n0 n1 (applyWord w t.stat)

/-- An example definition file: three contractions by `1/2` with constant vectors
`(0, 0)`, `(1/2, 0)` and `(1/4, 1/2)`, loaded by `readConfigFile`.  Their stationary
points are `(0, 0)`, `(1, 0)` and `(1/2, 1)`. -/
def gasket : List AffineTrans :=
  readConfigFile [⟨1 / 2, 0, 0, 1 / 2, 0, 0⟩, ⟨1 / 2, 0, 0, 1 / 2, 1 / 2, 0⟩,
    ⟨1 / 2, 0, 0, 1 / 2, 1 / 4, 1 / 2⟩]

/-! ## Input handlers -/

/-- A call that multiplies the current `GL_MODELVIEW` matrix:
`glTranslatef ( x, y, z )` or `glScalef ( x, y, z )`. -/
inductive GLOp where
  | translate (x y z : ℚ)
  | scale (x y z : ℚ)
deriving DecidableEq

/-- The mutable globals of the program, and the `GL_MODELVIEW` matrix kept as the
sequence of calls multiplied onto it since the last `glLoadIdentity ()`. -/
structure State where
  num_levels : Int
  xwin : ℚ
  ywin : ℚ
  scale_factor : ℚ
  modelview : List GLOp
deriving DecidableEq

/-- The static initialisers: `num_levels = 0`, `xwin = 0.0, ywin = 0.0`,
`scale_factor = 1.0`; the model-view matrix of a fresh context is the identity. -/
def State.init : State :=
  { num_levels := 0, xwin := 0, ywin := 0, scale_factor := 1, modelview := [] }

/-- The values of the `GLUT_KEY_*` constants tested by `Special`.  They are defined
in `GL/freeglut_std.h`, which is outside the file; the handlers take them as a
parameter. -/
structure GlutKeys where
  GLUT_KEY_UP : Int
  GLUT_KEY_DOWN : Int
  GLUT_KEY_LEFT : Int
  GLUT_KEY_RIGHT : Int
  GLUT_KEY_PAGE_UP : Int
  GLUT_KEY_PAGE_DOWN : Int
deriving DecidableEq

/-- The six constants are pairwise different, as the labels of one C `switch`
have to be. -/
def GlutKeys.Distinct (K : GlutKeys) : Prop :=
  [K.GLUT_KEY_UP, K.GLUT_KEY_DOWN, K.GLUT_KEY_LEFT, K.GLUT_KEY_RIGHT,
    K.GLUT_KEY_PAGE_UP, K.GLUT_KEY_PAGE_DOWN].Nodup

instance (K : GlutKeys) : Decidable K.Distinct :=
  inferInstanceAs (Decidable (List.Nodup _))

/-- The key codes of the GLUT API (`0x0065`, `0x0067`, `0x0064`, `0x0066`, `0x0068`,
`0x0069`), used for the concrete instances below. -/
def glutKeys : GlutKeys :=
  { GLUT_KEY_UP := 101, GLUT_KEY_DOWN := 103, GLUT_KEY_LEFT := 100, GLUT_KEY_RIGHT := 102,
    GLUT_KEY_PAGE_UP := 104, GLUT_KEY_PAGE_DOWN := 105 }

/-- The handler `Reshape ( width, height )`, as far as the globals and the model-view
matrix go: `glLoadIdentity ()`, `xwin = -1.0`, `ywin = 0.0`,
`glTranslatef ( xwin, ywin, -5.0 )`.  Viewport and projection are not modelled. -/
def Reshape (_width _height : Int) (s : State) : State :=
  let xwin : ℚ := -1
  let ywin : ℚ := 0
  { s with xwin := xwin, ywin := ywin, modelview := [GLOp.translate xwin ywin (-5)] }

/-- The handler `Key ( key, x, y )`.  The labels are `27` (Escape, which only calls
`glutLeaveMainLoop ()`), `'+'` = 43, `'-'` = 45, `'r'` = 114 and `'R'` = 82; any other
key changes nothing.  The increment `++num_levels` is taken without overflow. -/
def Key (key : Nat) (s : State) : State :=
  if key = 27 then s
  else if key = 43 then { s with num_levels := s.num_levels + 1 }
  else if key = 45 then
    if s.num_levels > 0 then { s with num_levels := s.num_levels - 1 } else s
  else if key = 114 ∨ key = 82 then
    let xwin : ℚ := -1
    let ywin : ℚ := 0
    { s with xwin := xwin, ywin := ywin, modelview := [GLOp.translate xwin ywin (-5)] }
  else s

/-- The handler `Special ( key, x, y )`; the `switch` is the chain of tests of its
labels in source order. -/
def Special (K : GlutKeys) (key : Int) (s : State) : State :=
  if key = K.GLUT_KEY_UP then
    { s with ywin := s.ywin + 1 / 10 * s.scale_factor,
             modelview := s.modelview ++ [GLOp.translate 0 (1 / 10 * s.scale_factor) 0] }
  else if key = K.GLUT_KEY_DOWN then
    { s with ywin := s.ywin - 1 / 10 * s.scale_factor,
             modelview := s.modelview ++ [GLOp.translate 0 (-(1 / 10) * s.scale_factor) 0] }
  else if key = K.GLUT_KEY_LEFT then
    { s with xwin := s.xwin - 1 / 10 * s.scale_factor,
             modelview := s.modelview ++ [GLOp.translate (-(1 / 10) * s.scale_factor) 0 0] }
  else if key = K.GLUT_KEY_RIGHT then
    { s with xwin := s.xwin + 1 / 10 * s.scale_factor,
             modelview := s.modelview ++ [GLOp.translate (1 / 10 * s.scale_factor) 0 0] }
  else if key = K.GLUT_KEY_PAGE_UP then
    { s with modelview := s.modelview ++
               [GLOp.translate (-s.xwin) (-s.ywin) 0, GLOp.scale (5 / 4) (5 / 4) (5 / 4),
                GLOp.translate s.xwin s.ywin 0],
             scale_factor := s.scale_factor * (4 / 5) }
  else if key = K.GLUT_KEY_PAGE_DOWN then
    { s with modelview := s.modelview ++
               [GLOp.translate (-s.xwin) (-s.ywin) 0, GLOp.scale (4 / 5) (4 / 5) (4 / 5),
                GLOp.translate s.xwin s.ywin 0],
             scale_factor := s.scale_factor * (5 / 4) }
  else s

/-- The callback `Display`: the `glVertex2f` calls issued between
`glBegin ( GL_LINES )` and `glEnd ()` come from
`draw_level ( num_levels, 1.0, 0.0, 0.0, 1.0, 0.0, 0.0 )`. -/
def Display (affine : List AffineTrans) (s : State) : List Event :=
  draw_level affine s.num_levels.toNat 1 0 0 1 0 0

/-- An event delivered by the GLUT main loop to one of the registered handlers. -/
inductive Input where
  | key (key : Nat)
  | special (key : Int)
  | reshape (width height : Int)
deriving DecidableEq

/-- Dispatch of one event to its handler. -/
def step (K : GlutKeys) (s : State) : Input → State
  | Input.key k => Key k s
  | Input.special k => Special K k s
  | Input.reshape w h => Reshape w h s

/-- The state after a sequence of events, handled one after the other (each
handler runs to completion before the next event). -/
def run (K : GlutKeys) (s : State) (evs : List Input) : State :=
  evs.foldl (step K) s

/-! ## Properties of `readConfigFile` -/

/-- The local `determ` written with the coefficients of `A`. -/
lemma determ_eq (c : ConfigLine) :
    determ c = (1 - c.a00) * (1 - c.a11) - c.a01 * c.a10 := by
  simp only [determ]; ring

/-- The entry computed on the branch `fabs ( determ ) > 1.e-6`. -/
lemma readConfigFile_entry_of_gt (c : ConfigLine) (h : |determ c| > 1 / 1000000) :
    readConfigFile_entry c =
      { a00 := c.a00, a01 := c.a01, a10 := c.a10, a11 := c.a11, b0 := c.b0, b1 := c.b1,
        statx := ((1 - c.a11) * c.b0 - (-c.a01) * c.b1) / determ c,
        staty := (-(-c.a10) * c.b0 + (1 - c.a00) * c.b1) / determ c } := by
  simp only [determ] at h
  simp only [readConfigFile_entry, determ, if_pos h]

/-- The entry computed on the `else` branch. -/
lemma readConfigFile_entry_of_le (c : ConfigLine) (h : |determ c| ≤ 1 / 1000000) :
    readConfigFile_entry c =
      { a00 := c.a00, a01 := c.a01, a10 := c.a10, a11 := c.a11, b0 := c.b0, b1 := c.b1,
        statx := 0, staty := 0 } := by
  simp only [determ] at h
  simp only [readConfigFile_entry, if_neg (not_lt.mpr h)]

/-- Entry `i` of the array is computed from definition line `i`. -/
lemma readConfigFile_getElem? (lines : List ConfigLine) (i : Nat) :
    (readConfigFile lines)[i]? = (lines[i]?).map readConfigFile_entry := by
  simp [readConfigFile]

/-- C1: for a definition line `i` with coefficients `a00 a01 a10 a11 b0 b1` whose
determinant `(1-a00)(1-a11) - a01*a10` has magnitude above `1e-6`, the array entry
`i` stored by `readConfigFile` keeps the six coefficients, its stationary point is
the Cramer quotient pair for `(I - A) r = b`, it solves `(I - A) r = b`, and it is a
fixed point: `statx = a00*statx + a01*staty + b0`, `staty = a10*statx + a11*staty + b1`. -/
theorem readConfigFile_stationary (lines : List ConfigLine) (i : Nat) (c : ConfigLine)
    (hc : lines[i]? = some c)
    (hdet : |(1 - c.a00) * (1 - c.a11) - c.a01 * c.a10| > 1 / 1000000) :
    ∃ t : AffineTrans, (readConfigFile lines)[i]? = some t ∧
      (t.a00 = c.a00 ∧ t.a01 = c.a01 ∧ t.a10 = c.a10 ∧ t.a11 = c.a11 ∧
        t.b0 = c.b0 ∧ t.b1 = c.b1) ∧
      t.statx = ((1 - c.a11) * c.b0 + c.a01 * c.b1) /
        ((1 - c.a00) * (1 - c.a11) - c.a01 * c.a10) ∧
      t.staty = (c.a10 * c.b0 + (1 - c.a00) * c.b1) /
        ((1 - c.a00) * (1 - c.a11) - c.a01 * c.a10) ∧
      ((1 - t.a00) * t.statx - t.a01 * t.staty = t.b0 ∧
        -t.a10 * t.statx + (1 - t.a11) * t.staty = t.b1) ∧
      t.statx = t.a00 * t.statx + t.a01 * t.staty + t.b0 ∧
      t.staty = t.a10 * t.statx + t.a11 * t.staty + t.b1 := by
  have hd : |determ c| > 1 / 1000000 := by rw [determ_eq]; exact hdet
  have hne : (1 - c.a00) * (1 - c.a11) - c.a01 * c.a10 ≠ 0 := by
    intro h0
    rw [h0] at hdet
    norm_num at hdet
  refine ⟨readConfigFile_entry c, ?_, ?_⟩
  · rw [readConfigFile_getElem?, hc]; rfl
  · rw [readConfigFile_entry_of_gt c hd, determ_eq]
    refine ⟨⟨rfl, rfl, rfl, rfl, rfl, rfl⟩, ?_, ?_, ⟨?_, ?_⟩, ?_, ?_⟩ <;> simp only [] <;>
      field_simp <;> ring

/-- Instance of C1: the line `0.5 0 0 0.5 3 4` (determinant `0.25`) gets the
stationary point `(6, 8)`. -/
theorem readConfigFile_stationary_witness :
    |(1 - (1 / 2 : ℚ)) * (1 - 1 / 2) - 0 * 0| > 1 / 1000000 ∧
    ∃ t : AffineTrans, (readConfigFile [⟨1 / 2, 0, 0, 1 / 2, 3, 4⟩])[0]? = some t ∧
      (t.a00 = 1 / 2 ∧ t.a01 = 0 ∧ t.a10 = 0 ∧ t.a11 = 1 / 2 ∧ t.b0 = 3 ∧ t.b1 = 4) ∧
      t.statx = ((1 - 1 / 2) * 3 + 0 * 4) / ((1 - 1 / 2) * (1 - 1 / 2) - 0 * 0) ∧
      t.staty = (0 * 3 + (1 - 1 / 2) * 4) / ((1 - 1 / 2) * (1 - 1 / 2) - 0 * 0) ∧
      ((1 - t.a00) * t.statx - t.a01 * t.staty = t.b0 ∧
        -t.a10 * t.statx + (1 - t.a11) * t.staty = t.b1) ∧
      t.statx = t.a00 * t.statx + t.a01 * t.staty + t.b0 ∧
      t.staty = t.a10 * t.statx + t.a11 * t.staty + t.b1 :=
  ⟨by norm_num [lt_abs],
    readConfigFile_stationary [⟨1 / 2, 0, 0, 1 / 2, 3, 4⟩] 0 ⟨1 / 2, 0, 0, 1 / 2, 3, 4⟩ rfl
      (by norm_num [lt_abs])⟩

/-! ### The branch in `double` arithmetic -/

lemma Dyadic.alignedMant_toRat (x : Dyadic) (e : Int) (h : e ≤ x.exp) :
    ((x.alignedMant e : Int) : ℚ) * (2 : ℚ) ^ e = x.toRat := by
  have hk : (((x.exp - e).toNat : Nat) : Int) = x.exp - e := Int.toNat_of_nonneg (by omega)
  have h2 : ((2 : ℚ) ^ (x.exp - e).toNat) = (2 : ℚ) ^ (x.exp - e) := by
    rw [← zpow_natCast, hk]
  simp only [Dyadic.alignedMant, Dyadic.toRat]
  push_cast
  rw [h2, mul_assoc, ← zpow_add₀ (two_ne_zero : (2 : ℚ) ≠ 0), sub_add_cancel]

lemma Dyadic.toRat_neg (x : Dyadic) : x.neg.toRat = -x.toRat := by
  simp [Dyadic.neg, Dyadic.toRat]

lemma Dyadic.toRat_mul (x y : Dyadic) : (x.mul y).toRat = x.toRat * y.toRat := by
  simp only [Dyadic.mul, Dyadic.toRat, Int.cast_mul, zpow_add₀ (two_ne_zero : (2 : ℚ) ≠ 0)]
  ring

lemma Dyadic.toRat_sub (x y : Dyadic) : (x.sub y).toRat = x.toRat - y.toRat := by
  rw [← x.alignedMant_toRat _ (min_le_left x.exp y.exp),
    ← y.alignedMant_toRat _ (min_le_right x.exp y.exp)]
  simp only [Dyadic.sub, Dyadic.toRat, Int.cast_sub]
  ring

lemma Dyadic.toRat_add (x y : Dyadic) : (x.add y).toRat = x.toRat + y.toRat := by
  rw [← x.alignedMant_toRat _ (min_le_left x.exp y.exp),
    ← y.alignedMant_toRat _ (min_le_right x.exp y.exp)]
  simp only [Dyadic.add, Dyadic.toRat, Int.cast_add]
  ring

lemma readConfigFile_entry_double_none (c : ConfigLine64) (hd : determ_double c = none) :
    readConfigFile_entry_double c = none := by
  unfold determ_double at hd
  unfold readConfigFile_entry_double
  cases h1 : round64 (Dyadic.sub ⟨1, 0⟩ c.a00) with
  | none => rfl
  | some m00 =>
    cases h2 : round64 (Dyadic.sub ⟨1, 0⟩ c.a11) with
    | none => rfl
    | some m11 =>
      cases h3 : round64 (m00.mul m11) with
      | none => simp only [Option.bind_eq_bind, Option.some_bind, Option.none_bind, h3]
      | some p =>
        cases h4 : round64 (c.a01.neg.mul c.a10.neg) with
        | none => simp only [Option.bind_eq_bind, Option.some_bind, Option.none_bind, h3, h4]
        | some q =>
          simp only [h1, h2, h3, h4, Option.bind_eq_bind, Option.some_bind] at hd ⊢
          rw [hd]
          rfl

/-! #### Soundness of the rounding -/

lemma bitLengthAux_zero (fuel : Nat) : bitLengthAux fuel 0 = 0 := by
  cases fuel <;> simp [bitLengthAux]

lemma bitLengthAux_spec (fuel n : Nat) (h : n ≤ fuel) :
    n < 2 ^ bitLengthAux fuel n ∧ (n ≠ 0 → 2 ^ (bitLengthAux fuel n - 1) ≤ n) := by
  induction fuel generalizing n with
  | zero =>
    have h0 : n = 0 := by omega
    subst h0
    simp [bitLengthAux]
  | succ fuel ih =>
    by_cases hn : n = 0
    · subst hn; simp [bitLengthAux]
    · have hhalf : n / 2 ≤ fuel := by omega
      obtain ⟨hlt, hge⟩ := ih (n / 2) hhalf
      simp only [bitLengthAux, if_neg hn, Nat.add_sub_cancel]
      refine ⟨?_, fun _ => ?_⟩
      · rw [pow_succ]; omega
      · by_cases h2 : n / 2 = 0
        · rw [h2, bitLengthAux_zero]; simp; omega
        · have h3 := hge h2
          have h4 : 1 ≤ bitLengthAux fuel (n / 2) := by
            by_contra hc
            have : bitLengthAux fuel (n / 2) = 0 := by omega
            rw [this] at hlt
            omega
          obtain ⟨b, hb⟩ : ∃ b, bitLengthAux fuel (n / 2) = b + 1 :=
            ⟨bitLengthAux fuel (n / 2) - 1, by omega⟩
          rw [hb] at h3 ⊢
          rw [pow_succ]
          simp only [Nat.add_sub_cancel] at h3
          omega

/-- `bitLength n` is the least `k` with `n < 2 ^ k`. -/
lemma bitLength_spec (n : Nat) :
    n < 2 ^ bitLength n ∧ (n ≠ 0 → 2 ^ (bitLength n - 1) ≤ n) :=
  bitLengthAux_spec n n (le_refl n)

/-- `roundNearestEven n k` is within one half of `n / 2 ^ k`. -/
lemma roundNearestEven_spec (n k : Nat) :
    2 * n ≤ 2 * (roundNearestEven n k * 2 ^ k) + 2 ^ k ∧
    2 * (roundNearestEven n k * 2 ^ k) ≤ 2 * n + 2 ^ k := by
  have hdm : 2 ^ k * (n / 2 ^ k) + n % 2 ^ k = n := Nat.div_add_mod n (2 ^ k)
  have hr : n % 2 ^ k < 2 ^ k := Nat.mod_lt _ (by positivity)
  have hc : n / 2 ^ k * 2 ^ k = 2 ^ k * (n / 2 ^ k) := Nat.mul_comm _ _
  have hs : (n / 2 ^ k + 1) * 2 ^ k = 2 ^ k * (n / 2 ^ k) + 2 ^ k := by ring
  unfold roundNearestEven
  simp only
  split_ifs <;> (try rw [hs]) <;> (try rw [hc]) <;> omega

lemma Dyadic.abs_toRat_eq (y : Dyadic) :
    |y.toRat| = (y.mant.natAbs : ℚ) * (2 : ℚ) ^ y.exp := by
  have hpos : (0 : ℚ) < (2 : ℚ) ^ y.exp := zpow_pos (by norm_num) _
  rw [Dyadic.toRat, abs_mul, abs_of_pos hpos, Nat.cast_natAbs, Int.cast_abs]

lemma Dyadic.abs_toRat_lt (y : Dyadic) (k : ℤ)
    (h : (bitLength y.mant.natAbs : ℤ) + y.exp ≤ k) : |y.toRat| < (2 : ℚ) ^ k := by
  have hpos : (0 : ℚ) < (2 : ℚ) ^ y.exp := zpow_pos (by norm_num) _
  have hlt : (y.mant.natAbs : ℚ) < (2 : ℚ) ^ (bitLength y.mant.natAbs) := by
    exact_mod_cast (bitLength_spec y.mant.natAbs).1
  calc |y.toRat| = (y.mant.natAbs : ℚ) * (2 : ℚ) ^ y.exp := y.abs_toRat_eq
    _ < (2 : ℚ) ^ (bitLength y.mant.natAbs) * (2 : ℚ) ^ y.exp :=
        mul_lt_mul_of_pos_right hlt hpos
    _ = (2 : ℚ) ^ ((bitLength y.mant.natAbs : ℤ) + y.exp) := by
        rw [zpow_add₀ (two_ne_zero : (2 : ℚ) ≠ 0), zpow_natCast]
    _ ≤ (2 : ℚ) ^ k := zpow_le_zpow_right₀ (by norm_num) h

/-- Soundness of `round64`: the result is a finite `double` (at most 53 significant
bits, last bit not below `2 ^ (-1074)`, magnitude below `2 ^ 1024`) within half a unit
in its last place of the exact value. -/
lemma round64_spec (x y : Dyadic) (h : round64 x = some y) :
    y.mant.natAbs ≤ 2 ^ 53 ∧ -1074 ≤ y.exp ∧ |y.toRat| < (2 : ℚ) ^ (1024 : ℤ) ∧
      2 * |y.toRat - x.toRat| ≤ (2 : ℚ) ^ y.exp ∧
      (y = x ∨ y.exp = -1074 ∨ 2 ^ 52 ≤ y.mant.natAbs) := by
  unfold round64 at h
  simp only at h
  split_ifs at h with hE hov hov
  · -- the exact value is representable
    have hy : y = x := by simpa using h.symm
    subst hy
    have hb : bitLength y.mant.natAbs ≤ 53 := by
      have := le_trans (le_max_left _ _) hE
      omega
    refine ⟨?_, le_trans (le_max_right _ _) hE, y.abs_toRat_lt 1024 hov, ?_⟩
    · exact le_trans (bitLength_spec _).1.le (Nat.pow_le_pow_right (by norm_num) hb)
    · exact ⟨by rw [sub_self, abs_zero, mul_zero]; positivity, Or.inl rfl⟩
  · -- the exact value is rounded
    have hy := (Option.some.inj h).symm
    subst hy
    simp only at hov ⊢
    have hlt : x.exp < max (x.exp + (bitLength x.mant.natAbs : ℤ) - 53) (-1074) :=
      not_le.mp hE
    obtain ⟨k, hk⟩ : ∃ k : ℕ,
        (max (x.exp + (bitLength x.mant.natAbs : ℤ) - 53) (-1074) - x.exp).toNat = k := ⟨_, rfl⟩
    have hkz : (k : ℤ) = max (x.exp + (bitLength x.mant.natAbs : ℤ) - 53) (-1074) - x.exp := by
      rw [← hk]; exact Int.toNat_of_nonneg (by omega)
    rw [hk] at hov ⊢
    obtain ⟨hlo, hhi⟩ := roundNearestEven_spec x.mant.natAbs k
    have hP : 0 < 2 ^ k := by positivity
    have hbits : bitLength x.mant.natAbs ≤ 53 + k := by
      have := le_max_left (x.exp + (bitLength x.mant.natAbs : ℤ) - 53) (-1074)
      omega
    have hn : x.mant.natAbs < 2 ^ 53 * 2 ^ k := by
      rw [← pow_add]
      exact lt_of_lt_of_le (bitLength_spec _).1 (Nat.pow_le_pow_right (by norm_num) hbits)
    have hq : roundNearestEven x.mant.natAbs k ≤ 2 ^ 53 := by
      by_contra hc
      have h1 : (2 ^ 53 + 1) * 2 ^ k ≤ roundNearestEven x.mant.natAbs k * 2 ^ k :=
        Nat.mul_le_mul_right _ (by omega)
      have h2 : (2 ^ 53 + 1) * 2 ^ k = 2 ^ 53 * 2 ^ k + 2 ^ k := by ring
      omega
    have hsign : (x.mant.sign).natAbs ≤ 1 := by
      rw [Int.natAbs_sign]; split_ifs <;> omega
    refine ⟨?_, le_max_right _ _, Dyadic.abs_toRat_lt _ 1024 hov, ?_, ?_⟩
    · rw [Int.natAbs_mul, Int.natAbs_ofNat]
      calc (x.mant.sign).natAbs * roundNearestEven x.mant.natAbs k
          ≤ 1 * roundNearestEven x.mant.natAbs k := Nat.mul_le_mul_right _ hsign
        _ ≤ 2 ^ 53 := by rw [one_mul]; exact hq
    · have hpos : (0 : ℚ) < (2 : ℚ) ^ x.exp := zpow_pos (by norm_num) _
      have hpow : (2 : ℚ) ^ max (x.exp + (bitLength x.mant.natAbs : ℤ) - 53) (-1074) =
          (2 : ℚ) ^ k * (2 : ℚ) ^ x.exp := by
        rw [← zpow_natCast, ← zpow_add₀ (two_ne_zero : (2 : ℚ) ≠ 0), hkz, sub_add_cancel]
      have hm : (x.mant : ℚ) = (x.mant.sign : ℚ) * (x.mant.natAbs : ℚ) := by
        calc (x.mant : ℚ) = ((x.mant.sign * (x.mant.natAbs : ℤ) : ℤ) : ℚ) := by
              rw [Int.sign_mul_natAbs]
          _ = (x.mant.sign : ℚ) * (x.mant.natAbs : ℚ) := by
              rw [Int.cast_mul, Int.cast_natCast]
      have hdiff : (⟨x.mant.sign * (roundNearestEven x.mant.natAbs k : ℤ),
            max (x.exp + (bitLength x.mant.natAbs : ℤ) - 53) (-1074)⟩ : Dyadic).toRat -
            x.toRat =
          (x.mant.sign : ℚ) *
            ((roundNearestEven x.mant.natAbs k : ℚ) * (2 : ℚ) ^ k - (x.mant.natAbs : ℚ)) *
              (2 : ℚ) ^ x.exp := by
        simp only [Dyadic.toRat, hpow]
        rw [hm]
        push_cast
        ring
      have hs1 : |(x.mant.sign : ℚ)| ≤ 1 := by
        have : ((x.mant.sign).natAbs : ℚ) ≤ 1 := by exact_mod_cast hsign
        rwa [Nat.cast_natAbs, Int.cast_abs] at this
      have herr : 2 * |(roundNearestEven x.mant.natAbs k : ℚ) * (2 : ℚ) ^ k -
          (x.mant.natAbs : ℚ)| ≤ (2 : ℚ) ^ k := by
        have h1 : (2 : ℚ) * (x.mant.natAbs : ℚ) ≤
            2 * ((roundNearestEven x.mant.natAbs k : ℚ) * (2 : ℚ) ^ k) + (2 : ℚ) ^ k := by
          exact_mod_cast hlo
        have h2 : (2 : ℚ) * ((roundNearestEven x.mant.natAbs k : ℚ) * (2 : ℚ) ^ k) ≤
            2 * (x.mant.natAbs : ℚ) + (2 : ℚ) ^ k := by
          exact_mod_cast hhi
        have habs : |(roundNearestEven x.mant.natAbs k : ℚ) * (2 : ℚ) ^ k -
            (x.mant.natAbs : ℚ)| ≤ (2 : ℚ) ^ k / 2 :=
          abs_le.mpr ⟨by linarith, by linarith⟩
        linarith
      rw [hdiff, abs_mul, abs_mul, abs_of_pos hpos, hpow]
      have hnn : 0 ≤ |(roundNearestEven x.mant.natAbs k : ℚ) * (2 : ℚ) ^ k -
          (x.mant.natAbs : ℚ)| := abs_nonneg _
      nlinarith [mul_le_mul_of_nonneg_right hs1 hnn, abs_nonneg (x.mant.sign : ℚ)]
    · by_cases hmin : max (x.exp + (bitLength x.mant.natAbs : ℤ) - 53) (-1074) = -1074
      · exact Or.inr (Or.inl hmin)
      · refine Or.inr (Or.inr ?_)
        have hmax : max (x.exp + (bitLength x.mant.natAbs : ℤ) - 53) (-1074) =
            x.exp + (bitLength x.mant.natAbs : ℤ) - 53 := by
          rcases max_choice (x.exp + (bitLength x.mant.natAbs : ℤ) - 53) (-1074) with h | h
          · exact h
          · exact absurd h hmin
        have hb : bitLength x.mant.natAbs = 53 + k := by omega
        have hne : x.mant.natAbs ≠ 0 := by
          intro h0
          rw [h0] at hb
          have hz : bitLength 0 = 0 := rfl
          omega
        have hge : 2 ^ 52 * 2 ^ k ≤ x.mant.natAbs := by
          have := (bitLength_spec x.mant.natAbs).2 hne
          rw [hb, show 53 + k - 1 = 52 + k by omega, pow_add] at this
          exact this
        have hm0 : x.mant ≠ 0 := fun h0 => hne (by rw [h0]; rfl)
        have hs : (x.mant.sign).natAbs = 1 := by
          rw [Int.natAbs_sign, if_neg hm0]
        rw [Int.natAbs_mul, Int.natAbs_ofNat, hs, one_mul]
        by_contra hc
        have h1 : (roundNearestEven x.mant.natAbs k + 1) * 2 ^ k ≤ 2 ^ 52 * 2 ^ k :=
          Nat.mul_le_mul_right _ (by omega)
        have h2 : (roundNearestEven x.mant.natAbs k + 1) * 2 ^ k =
            roundNearestEven x.mant.natAbs k * 2 ^ k + 2 ^ k := by ring
        omega

/-! #### The branch -/

/-- C7: a definition line with zero matrix and constant vector `(x0, y0)` has
determinant `1` of `I - A`, which is above the `1e-6` threshold, and the entry
stored for it has the stationary point exactly `(x0, y0)`. -/
theorem readConfigFile_zero_matrix (x0 y0 : ℚ) :
    determ ⟨0, 0, 0, 0, x0, y0⟩ = 1 ∧
    ¬ (|determ ⟨0, 0, 0, 0, x0, y0⟩| ≤ 1 / 1000000) ∧
    readConfigFile_entry ⟨0, 0, 0, 0, x0, y0⟩ = ⟨0, 0, 0, 0, x0, y0, x0, y0⟩ ∧
    ∀ (pre post : List ConfigLine),
      (readConfigFile (pre ++ ⟨0, 0, 0, 0, x0, y0⟩ :: post))[pre.length]? =
        some ⟨0, 0, 0, 0, x0, y0, x0, y0⟩ := by
  have hdet : determ ⟨0, 0, 0, 0, x0, y0⟩ = 1 := by simp [determ]
  have hgt : |determ ⟨0, 0, 0, 0, x0, y0⟩| > 1 / 1000000 := by
    rw [hdet]; norm_num
  have hentry : readConfigFile_entry ⟨0, 0, 0, 0, x0, y0⟩ = ⟨0, 0, 0, 0, x0, y0, x0, y0⟩ := by
    rw [readConfigFile_entry_of_gt _ hgt, hdet]
    simp
  refine ⟨hdet, not_le.mpr hgt, hentry, ?_⟩
  intro pre post
  rw [readConfigFile_getElem?, List.getElem?_append_right (le_refl _)]
  simp [hentry]

/-! ## Properties of `draw_level` -/

lemma vertices_append (es fs : List Event) :
    vertices (es ++ fs) = vertices es ++ vertices fs := by
  induction es with
  | nil => rfl
  | cons e es ih => cases e <;> simp [vertices, ih]

lemma points_append (es fs : List Event) :
    points (es ++ fs) = points es ++ points fs := by
  induction es with
  | nil => rfl
  | cons e es ih => cases e <;> simp [points, ih]

lemma leafCount_enter (k : Nat) (es : List Event) :
    leafCount (Event.enter k :: es) = leafCount es + (if k = 0 then 1 else 0) := by
  cases k <;> simp [leafCount]

lemma leafCount_append (es fs : List Event) :
    leafCount (es ++ fs) = leafCount es + leafCount fs := by
  induction es with
  | nil => simp [leafCount]
  | cons e es ih =>
    cases e with
    | enter k => simp only [List.cons_append, leafCount_enter, ih]; omega
    | point x y => simp [leafCount, ih]
    | vertex x y => simp [leafCount, ih]

lemma vertices_flatMap {α : Type} (l : List α) (f : α → List Event) :
    vertices (l.flatMap f) = l.flatMap fun a => vertices (f a) := by
  induction l with
  | nil => rfl
  | cons a l ih => simp [List.flatMap_cons, vertices_append, ih]

lemma points_flatMap {α : Type} (l : List α) (f : α → List Event) :
    points (l.flatMap f) = l.flatMap fun a => points (f a) := by
  induction l with
  | nil => rfl
  | cons a l ih => simp [List.flatMap_cons, points_append, ih]

lemma leafCount_flatMap_const {α : Type} (l : List α) (f : α → List Event) (k : Nat)
    (h : ∀ a ∈ l, leafCount (f a) = k) :
    leafCount (l.flatMap f) = l.length * k := by
  induction l with
  | nil => simp [leafCount]
  | cons a l ih =>
    rw [List.flatMap_cons, leafCount_append, h a (List.mem_cons_self a l),
      ih fun b hb => h b (List.mem_cons_of_mem a hb), List.length_cons]
    ring

lemma length_flatMap_const {α β : Type} (l : List α) (f : α → List β) (k : Nat)
    (h : ∀ a ∈ l, (f a).length = k) :
    (l.flatMap f).length = l.length * k := by
  induction l with
  | nil => simp
  | cons a l ih =>
    rw [List.flatMap_cons, List.length_append, h a (List.mem_cons_self a l),
      ih fun b hb => h b (List.mem_cons_of_mem a hb), List.length_cons]
    ring

/-- The outer map after one transformation is the map `draw_level` passes down. -/
lemma applyMN_comp (m00 m01 m10 m11 n0 n1 : ℚ) (t : AffineTrans) (p : ℚ × ℚ) :
    applyMN (m00 * t.a00 + m01 * t.a10) (m00 * t.a01 + m01 * t.a11)
        (m10 * t.a00 + m11 * t.a10) (m10 * t.a01 + m11 * t.a11)
        (m00 * t.b0 + m01 * t.b1 + n0) (m10 * t.b0 + m11 * t.b1 + n1) p =
      applyMN m00 m01 m10 m11 n0 n1 (t.apply p) := by
  simp only [applyMN, AffineTrans.apply, Prod.mk.injEq]
  constructor <;> ring

lemma applyMN_id (p : ℚ × ℚ) : applyMN 1 0 0 1 0 0 p = p := by
  simp [applyMN]

/-! ### The branch `num == 0` -/

lemma points_draw_level_loop (m00 m01 m10 m11 n0 n1 x0 y0 : ℚ) (rest : List AffineTrans) :
    points (draw_level_loop m00 m01 m10 m11 n0 n1 x0 y0 rest) =
      rest.map fun t => applyMN m00 m01 m10 m11 n0 n1 t.stat := by
  induction rest generalizing x0 y0 with
  | nil => rfl
  | cons t rest ih =>
    simp [draw_level_loop, points, ih, applyMN, AffineTrans.stat]

lemma vertices_draw_level_loop (m00 m01 m10 m11 n0 n1 x0 y0 : ℚ) (rest : List AffineTrans) :
    vertices (draw_level_loop m00 m01 m10 m11 n0 n1 x0 y0 rest) =
      polyVertices ((x0, y0) :: rest.map fun t => applyMN m00 m01 m10 m11 n0 n1 t.stat) := by
  induction rest generalizing x0 y0 with
  | nil => rfl
  | cons t rest ih =>
    simp [draw_level_loop, vertices, ih, polyVertices, applyMN, AffineTrans.stat]

lemma leafCount_draw_level_loop (m00 m01 m10 m11 n0 n1 x0 y0 : ℚ) (rest : List AffineTrans) :
    leafCount (draw_level_loop m00 m01 m10 m11 n0 n1 x0 y0 rest) = 0 := by
  induction rest generalizing x0 y0 with
  | nil => rfl
  | cons t rest ih => simp [draw_level_loop, leafCount, ih]

lemma points_draw_level_zero (affine : List AffineTrans) (m00 m01 m10 m11 n0 n1 : ℚ) :
    points (draw_level affine 0 m00 m01 m10 m11 n0 n1) =
      leafPoints affine m00 m01 m10 m11 n0 n1 [] := by
  cases affine with
  | nil => rfl
  | cons a0 rest =>
    simp [draw_level, points, points_draw_level_loop, leafPoints, applyWord, applyMN,
      AffineTrans.stat]

lemma vertices_draw_level_zero (affine : List AffineTrans) (m00 m01 m10 m11 n0 n1 : ℚ) :
    vertices (draw_level affine 0 m00 m01 m10 m11 n0 n1) =
      polyVertices (leafPoints affine m00 m01 m10 m11 n0 n1 []) := by
  cases affine with
  | nil => rfl
  | cons a0 rest =>
    simp [draw_level, vertices, vertices_draw_level_loop, leafPoints, applyWord, applyMN,
      AffineTrans.stat]

/-! ### Polylines and `GL_LINES` -/

lemma length_polyVertices (pts : List (ℚ × ℚ)) :
    (polyVertices pts).length = 2 * (pts.length - 1) := by
  induction pts with
  | nil => rfl
  | cons p rest ih =>
    cases rest with
    | nil => rfl
    | cons q rest =>
      simp only [polyVertices, List.length_cons] at ih ⊢
      omega

lemma gl_lines_polyVertices (pts : List (ℚ × ℚ)) :
    gl_lines (polyVertices pts) = polyline pts := by
  induction pts with
  | nil => rfl
  | cons p rest ih =>
    cases rest with
    | nil => rfl
    | cons q rest =>
      simp only [polyVertices, gl_lines, ih]
      simp [polyline]

lemma polyVertices_map (g : ℚ × ℚ → ℚ × ℚ) (pts : List (ℚ × ℚ)) :
    polyVertices (pts.map g) = (polyVertices pts).map g := by
  induction pts with
  | nil => rfl
  | cons p rest ih =>
    cases rest with
    | nil => rfl
    | cons q rest =>
      simp only [List.map_cons, polyVertices] at ih ⊢
      rw [ih]

lemma length_gl_lines (vs : List (ℚ × ℚ)) : (gl_lines vs).length = vs.length / 2 := by
  induction vs using gl_lines.induct with
  | case1 p q rest ih => simp only [gl_lines, List.length_cons, ih]; omega
  | case2 vs h =>
    match vs, h with
    | [], _ => rfl
    | [_], _ => simp [gl_lines]
    | p :: q :: rest, h => exact absurd rfl (h p q rest)

/-- Segments are not formed across the boundary of an even-length vertex
sequence. -/
lemma gl_lines_append (us vs : List (ℚ × ℚ)) (h : Even us.length) :
    gl_lines (us ++ vs) = gl_lines us ++ gl_lines vs := by
  induction us using gl_lines.induct with
  | case1 p q rest ih =>
    have h2 : Even rest.length := by
      simp only [List.length_cons] at h
      rcases h with ⟨k, hk⟩
      exact ⟨k - 1, by omega⟩
    simp [gl_lines, ih h2]
  | case2 us hus =>
    match us, hus, h with
    | [], _, _ => simp [gl_lines]
    | [_], _, h => simp at h
    | p :: q :: rest, hus, _ => exact absurd rfl (hus p q rest)

lemma gl_lines_flatMap {α : Type} (l : List α) (f : α → List (ℚ × ℚ))
    (h : ∀ a ∈ l, Even (f a).length) :
    gl_lines (l.flatMap f) = l.flatMap fun a => gl_lines (f a) := by
  induction l with
  | nil => rfl
  | cons a l ih =>
    rw [List.flatMap_cons, List.flatMap_cons,
      gl_lines_append _ _ (h a (List.mem_cons_self a l)),
      ih fun b hb => h b (List.mem_cons_of_mem a hb)]

/-! ### Index tuples -/

lemma length_words (affine : List AffineTrans) (d : Nat) :
    (words affine d).length = affine.length ^ d := by
  induction d with
  | zero => rfl
  | succ d ih =>
    rw [words, length_flatMap_const affine _ (affine.length ^ d) (fun t _ => by simp [ih])]
    ring

lemma words_succ_flatMap {β : Type} (affine : List AffineTrans) (d : Nat)
    (F : List AffineTrans → List β) :
    (words affine (d + 1)).flatMap F =
      affine.flatMap fun t => (words affine d).flatMap fun w => F (t :: w) := by
  simp only [words, List.flatMap_assoc, List.flatMap_map]

lemma leafPoints_comp (affine : List AffineTrans) (m00 m01 m10 m11 n0 n1 : ℚ)
    (t : AffineTrans) (w : List AffineTrans) :
    leafPoints affine (m00 * t.a00 + m01 * t.a10) (m00 * t.a01 + m01 * t.a11)
        (m10 * t.a00 + m11 * t.a10) (m10 * t.a01 + m11 * t.a11)
        (m00 * t.b0 + m01 * t.b1 + n0) (m10 * t.b0 + m11 * t.b1 + n1) w =
      leafPoints affine m00 m01 m10 m11 n0 n1 (t :: w) := by
  simp only [leafPoints, applyMN_comp, applyWord, List.foldr_cons]

lemma length_leafPoints (affine : List AffineTrans) (m00 m01 m10 m11 n0 n1 : ℚ)
    (w : List AffineTrans) :
    (leafPoints affine m00 m01 m10 m11 n0 n1 w).length = affine.length := by
  simp [leafPoints]

/-! ### The whole recursion -/

/-- The evaluated points of a run, leaf by leaf. -/
lemma points_draw_level (affine : List AffineTrans) (d : Nat) (m00 m01 m10 m11 n0 n1 : ℚ) :
    points (draw_level affine d m00 m01 m10 m11 n0 n1) =
      (words affine d).flatMap fun w => leafPoints affine m00 m01 m10 m11 n0 n1 w := by
  induction d generalizing m00 m01 m10 m11 n0 n1 with
  | zero => simp [points_draw_level_zero, words]
  | succ d ih =>
    rw [words_succ_flatMap]
    simp only [draw_level, points, points_flatMap, ih, leafPoints_comp]

/-- The emitted vertices of a run, leaf by leaf. -/
lemma vertices_draw_level (affine : List AffineTrans) (d : Nat) (m00 m01 m10 m11 n0 n1 : ℚ) :
    vertices (draw_level affine d m00 m01 m10 m11 n0 n1) =
      (words affine d).flatMap fun w =>
        polyVertices (leafPoints affine m00 m01 m10 m11 n0 n1 w) := by
  induction d generalizing m00 m01 m10 m11 n0 n1 with
  | zero => simp [vertices_draw_level_zero, words]
  | succ d ih =>
    rw [words_succ_flatMap]
    simp only [draw_level, vertices, vertices_flatMap, ih, leafPoints_comp]

lemma leafCount_draw_level (affine : List AffineTrans) (d : Nat) (m00 m01 m10 m11 n0 n1 : ℚ) :
    leafCount (draw_level affine d m00 m01 m10 m11 n0 n1) = affine.length ^ d := by
  induction d generalizing m00 m01 m10 m11 n0 n1 with
  | zero =>
    cases affine with
    | nil => rfl
    | cons a0 rest => simp [draw_level, leafCount, leafCount_draw_level_loop]
  | succ d ih =>
    simp only [draw_level, leafCount_enter]
    rw [leafCount_flatMap_const affine _ (affine.length ^ d) (fun t _ => ih _ _ _ _ _ _)]
    simp only [Nat.add_one_ne_zero, if_false]
    ring

lemma length_points_draw_level (affine : List AffineTrans) (d : Nat)
    (m00 m01 m10 m11 n0 n1 : ℚ) :
    (points (draw_level affine d m00 m01 m10 m11 n0 n1)).length =
      affine.length ^ d * affine.length := by
  rw [points_draw_level, length_flatMap_const _ _ affine.length
    (fun w _ => length_leafPoints affine _ _ _ _ _ _ w), length_words]

lemma length_vertices_draw_level (affine : List AffineTrans) (d : Nat)
    (m00 m01 m10 m11 n0 n1 : ℚ) :
    (vertices (draw_level affine d m00 m01 m10 m11 n0 n1)).length =
      2 * (affine.length ^ d * (affine.length - 1)) := by
  rw [vertices_draw_level, length_flatMap_const _ _ (2 * (affine.length - 1))
    (fun w _ => by rw [length_polyVertices, length_leafPoints]), length_words]
  ring

lemma segments_draw_level (affine : List AffineTrans) (d : Nat) (m00 m01 m10 m11 n0 n1 : ℚ) :
    segments (draw_level affine d m00 m01 m10 m11 n0 n1) =
      (words affine d).flatMap fun w =>
        polyline (leafPoints affine m00 m01 m10 m11 n0 n1 w) := by
  rw [segments, vertices_draw_level, gl_lines_flatMap _ _
    (fun w _ => by rw [length_polyVertices]; exact even_two_mul _)]
  simp only [gl_lines_polyVertices]

lemma polyline_getElem? (pts : List (ℚ × ℚ)) (k : Nat) (p q : ℚ × ℚ)
    (hp : pts[k]? = some p) (hq : pts[k + 1]? = some q) :
    (polyline pts)[k]? = some (p, q) := by
  rw [polyline, List.getElem?_zip_eq_some]
  exact ⟨hp, by rw [List.getElem?_tail]; exact hq⟩

lemma length_polyline (pts : List (ℚ × ℚ)) : (polyline pts).length = pts.length - 1 := by
  simp [polyline, List.length_zip]

lemma length_gasket : gasket.length = 3 := by
  simp [gasket, readConfigFile]

/-- C3: over an array of `N ≥ 1` transformations, a run of
`draw_level ( d, M, n )` enters the branch `num == 0` exactly `N^d` times, evaluates
`N^d * N` transformed stationary points, and draws `N^d * (N-1)` line segments with
two `glVertex2f` calls each, for every depth `d` and every `M`, `n`; every leaf draws
one segment fewer than it evaluates points. -/
theorem draw_level_output_size (affine : List AffineTrans) (hN : 1 ≤ affine.length)
    (d : Nat) (m00 m01 m10 m11 n0 n1 : ℚ) :
    leafCount (draw_level affine d m00 m01 m10 m11 n0 n1) = affine.length ^ d ∧
    (points (draw_level affine d m00 m01 m10 m11 n0 n1)).length =
      affine.length ^ d * affine.length ∧
    (segments (draw_level affine d m00 m01 m10 m11 n0 n1)).length =
      affine.length ^ d * (affine.length - 1) ∧
    (vertices (draw_level affine d m00 m01 m10 m11 n0 n1)).length =
      2 * (segments (draw_level affine d m00 m01 m10 m11 n0 n1)).length ∧
    (segments (draw_level affine d m00 m01 m10 m11 n0 n1)).length +
        leafCount (draw_level affine d m00 m01 m10 m11 n0 n1) =
      (points (draw_level affine d m00 m01 m10 m11 n0 n1)).length := by
  have hseg : (segments (draw_level affine d m00 m01 m10 m11 n0 n1)).length =
      affine.length ^ d * (affine.length - 1) := by
    rw [segments, length_gl_lines, length_vertices_draw_level]
    omega
  refine ⟨leafCount_draw_level affine d _ _ _ _ _ _,
    length_points_draw_level affine d _ _ _ _ _ _, hseg, ?_, ?_⟩
  · rw [hseg, length_vertices_draw_level]
  · rw [hseg, leafCount_draw_level, length_points_draw_level]
    obtain ⟨k, hk⟩ : ∃ k, affine.length = k + 1 := ⟨affine.length - 1, by omega⟩
    rw [hk, Nat.add_sub_cancel]
    ring

/-- Instance of C3: three transformations at depth 2 give 9 leaves, 27 evaluated
points, 18 segments and 36 vertices. -/
theorem draw_level_output_size_witness :
    1 ≤ gasket.length ∧
    leafCount (draw_level gasket 2 1 0 0 1 0 0) = 9 ∧
    (points (draw_level gasket 2 1 0 0 1 0 0)).length = 27 ∧
    (segments (draw_level gasket 2 1 0 0 1 0 0)).length = 18 ∧
    (vertices (draw_level gasket 2 1 0 0 1 0 0)).length = 36 := by
  have h := draw_level_output_size gasket (by simp [length_gasket]) 2 1 0 0 1 0 0
  simp only [length_gasket] at h
  obtain ⟨h1, h2, h3, h4, _⟩ := h
  rw [h3] at h4
  exact ⟨by simp [length_gasket], h1, h2, h3, h4⟩

/-- C4: over an array of `N` transformations, `draw_level ( 0, 1, 0, 0, 1, 0, 0 )`
evaluates exactly the `N` stored stationary points in array order and draws `N-1`
segments, segment `k` joining stationary point `k` to stationary point `k+1` (an open
polyline, nothing joins the last point to the first).  For any `M, n` the evaluated
points are `M * stat_i + n` and the segments are the open polyline through them.
(For `N = 0` this reads: no point and no segment.) -/
theorem draw_level_base_case (affine : List AffineTrans) :
    points (draw_level affine 0 1 0 0 1 0 0) = affine.map AffineTrans.stat ∧
    (points (draw_level affine 0 1 0 0 1 0 0)).length = affine.length ∧
    segments (draw_level affine 0 1 0 0 1 0 0) = polyline (affine.map AffineTrans.stat) ∧
    (segments (draw_level affine 0 1 0 0 1 0 0)).length = affine.length - 1 ∧
    (∀ (k : Nat) (t u : AffineTrans), affine[k]? = some t → affine[k + 1]? = some u →
      (segments (draw_level affine 0 1 0 0 1 0 0))[k]? = some (t.stat, u.stat)) ∧
    ∀ m00 m01 m10 m11 n0 n1 : ℚ,
      points (draw_level affine 0 m00 m01 m10 m11 n0 n1) =
        affine.map (fun t => applyMN m00 m01 m10 m11 n0 n1 t.stat) ∧
      segments (draw_level affine 0 m00 m01 m10 m11 n0 n1) =
        polyline (affine.map fun t => applyMN m00 m01 m10 m11 n0 n1 t.stat) := by
  have hgen : ∀ m00 m01 m10 m11 n0 n1 : ℚ,
      points (draw_level affine 0 m00 m01 m10 m11 n0 n1) =
        affine.map (fun t => applyMN m00 m01 m10 m11 n0 n1 t.stat) ∧
      segments (draw_level affine 0 m00 m01 m10 m11 n0 n1) =
        polyline (affine.map fun t => applyMN m00 m01 m10 m11 n0 n1 t.stat) := by
    intro m00 m01 m10 m11 n0 n1
    constructor
    · rw [points_draw_level_zero]; simp [leafPoints, applyWord]
    · rw [segments, vertices_draw_level_zero, gl_lines_polyVertices]
      simp [leafPoints, applyWord]
  have hid : (fun t : AffineTrans => applyMN 1 0 0 1 0 0 t.stat) = AffineTrans.stat := by
    funext t; exact applyMN_id _
  have hp := (hgen 1 0 0 1 0 0).1
  have hs := (hgen 1 0 0 1 0 0).2
  rw [hid] at hp hs
  refine ⟨hp, by rw [hp, List.length_map], hs, by rw [hs, length_polyline, List.length_map],
    ?_, hgen⟩
  intro k t u ht hu
  rw [hs]
  exact polyline_getElem? _ k _ _ (by simp [ht]) (by simp [hu])

/-- Instance of C4: the three stationary points `(0,0)`, `(1,0)`, `(1/2,1)` of the
example array give the two segments `(0,0)-(1,0)` and `(1,0)-(1/2,1)`. -/
theorem draw_level_base_case_witness :
    points (draw_level gasket 0 1 0 0 1 0 0) = [(0, 0), (1, 0), (1 / 2, 1)] ∧
    segments (draw_level gasket 0 1 0 0 1 0 0) =
      [((0, 0), (1, 0)), ((1, 0), (1 / 2, 1))] ∧
    (segments (draw_level gasket 0 1 0 0 1 0 0))[1]? =
      some ((⟨1 / 2, 0, 0, 1 / 2, 1 / 2, 0, 1, 0⟩ : AffineTrans).stat,
        (⟨1 / 2, 0, 0, 1 / 2, 1 / 4, 1 / 2, 1 / 2, 1⟩ : AffineTrans).stat) := by
  have h := draw_level_base_case gasket
  refine ⟨?_, ?_, ?_⟩
  · rw [h.1]
    simp [gasket, readConfigFile, readConfigFile_entry, AffineTrans.stat]
    norm_num
  · rw [h.2.2.1]
    simp [gasket, readConfigFile, readConfigFile_entry, AffineTrans.stat, polyline]
    norm_num
  · refine h.2.2.2.2.1 1 _ _ ?_ ?_
    · simp [gasket, readConfigFile, readConfigFile_entry]
      norm_num
    · simp [gasket, readConfigFile, readConfigFile_entry]
      norm_num

/-- C5: for every depth `d ≥ 1` and every `M, n`, the vertex sequence and the
segment sequence of `draw_level ( d, M, n )` are the concatenation, over the array in
order, of those of `draw_level ( d-1, M*A_i, M*b_i + n )`; the map `(M*A_i, M*b_i + n)`
passed down is `p ↦ M (A_i p + b_i) + n`, the transformation `i` followed by the outer
map, and its six arguments are the entries of the matrix product `M * A_i` and of the
vector `M * b_i + n`. -/
theorem draw_level_composition (affine : List AffineTrans) (d : Nat) (hd : 1 ≤ d)
    (m00 m01 m10 m11 n0 n1 : ℚ) :
    vertices (draw_level affine d m00 m01 m10 m11 n0 n1) =
      (affine.flatMap fun t => vertices (draw_level affine (d - 1)
        (m00 * t.a00 + m01 * t.a10) (m00 * t.a01 + m01 * t.a11)
        (m10 * t.a00 + m11 * t.a10) (m10 * t.a01 + m11 * t.a11)
        (m00 * t.b0 + m01 * t.b1 + n0) (m10 * t.b0 + m11 * t.b1 + n1))) ∧
    segments (draw_level affine d m00 m01 m10 m11 n0 n1) =
      (affine.flatMap fun t => segments (draw_level affine (d - 1)
        (m00 * t.a00 + m01 * t.a10) (m00 * t.a01 + m01 * t.a11)
        (m10 * t.a00 + m11 * t.a10) (m10 * t.a01 + m11 * t.a11)
        (m00 * t.b0 + m01 * t.b1 + n0) (m10 * t.b0 + m11 * t.b1 + n1))) ∧
    (∀ (t : AffineTrans) (p : ℚ × ℚ),
      applyMN (m00 * t.a00 + m01 * t.a10) (m00 * t.a01 + m01 * t.a11)
          (m10 * t.a00 + m11 * t.a10) (m10 * t.a01 + m11 * t.a11)
          (m00 * t.b0 + m01 * t.b1 + n0) (m10 * t.b0 + m11 * t.b1 + n1) p =
        applyMN m00 m01 m10 m11 n0 n1 (t.apply p)) ∧
    ∀ t : AffineTrans,
      !![m00 * t.a00 + m01 * t.a10, m00 * t.a01 + m01 * t.a11;
         m10 * t.a00 + m11 * t.a10, m10 * t.a01 + m11 * t.a11] =
        !![m00, m01; m10, m11] * !![t.a00, t.a01; t.a10, t.a11] ∧
      ![m00 * t.b0 + m01 * t.b1 + n0, m10 * t.b0 + m11 * t.b1 + n1] =
        Matrix.mulVec !![m00, m01; m10, m11] ![t.b0, t.b1] + ![n0, n1] := by
  obtain ⟨k, rfl⟩ : ∃ k, d = k + 1 := ⟨d - 1, by omega⟩
  have hv : vertices (draw_level affine (k + 1) m00 m01 m10 m11 n0 n1) =
      (affine.flatMap fun t => vertices (draw_level affine k
        (m00 * t.a00 + m01 * t.a10) (m00 * t.a01 + m01 * t.a11)
        (m10 * t.a00 + m11 * t.a10) (m10 * t.a01 + m11 * t.a11)
        (m00 * t.b0 + m01 * t.b1 + n0) (m10 * t.b0 + m11 * t.b1 + n1))) := by
    simp only [draw_level, vertices, vertices_flatMap]
  refine ⟨hv, ?_, fun t p => applyMN_comp _ _ _ _ _ _ t p, fun t => ⟨?_, ?_⟩⟩
  · simp only [segments, Nat.add_sub_cancel]
    rw [hv, gl_lines_flatMap _ _ fun t _ => by
      rw [length_vertices_draw_level]; exact even_two_mul _]
  · rw [Matrix.mul_fin_two]
  · ext i
    fin_cases i <;> simp [Matrix.mulVec, Matrix.dotProduct, Fin.sum_univ_two] <;> ring

/-- Instance of C5: the example array at depth 1 with the identity as outer map. -/
theorem draw_level_composition_witness :
    1 ≤ 1 ∧
    segments (draw_level gasket 1 1 0 0 1 0 0) =
      (gasket.flatMap fun t => segments (draw_level gasket (1 - 1)
        (1 * t.a00 + 0 * t.a10) (1 * t.a01 + 0 * t.a11)
        (0 * t.a00 + 1 * t.a10) (0 * t.a01 + 1 * t.a11)
        (1 * t.b0 + 0 * t.b1 + 0) (0 * t.b0 + 1 * t.b1 + 0))) :=
  ⟨le_refl 1, (draw_level_composition gasket 1 (le_refl 1) 1 0 0 1 0 0).2.1⟩

lemma leafPoints_map (affine : List AffineTrans) (m00 m01 m10 m11 n0 n1 : ℚ)
    (w : List AffineTrans) :
    leafPoints affine m00 m01 m10 m11 n0 n1 w =
      (leafPoints affine 1 0 0 1 0 0 w).map (applyMN m00 m01 m10 m11 n0 n1) := by
  simp [leafPoints, applyMN_id]

/-- C10: for every depth `d`, every `M, n` and every array, the vertex sequence (and
the sequence of evaluated points) of `draw_level ( d, M, n )` is the image, point by
point and in the same order, under `p ↦ M p + n` of that of
`draw_level ( d, 1, 0, 0, 1, 0, 0 )`, the call made by `Display` when `num_levels = d`.  Explicitly the
evaluated points are `(M, n) ∘ T_i1 ∘ ... ∘ T_id` applied to the stationary points in
array order, for the index tuples `(i1, ..., id)` in lexicographic order, and the
vertices are the open polylines through the points of each tuple. -/
theorem draw_level_equivariant (affine : List AffineTrans) (d : Nat)
    (m00 m01 m10 m11 n0 n1 : ℚ) :
    vertices (draw_level affine d m00 m01 m10 m11 n0 n1) =
      (vertices (draw_level affine d 1 0 0 1 0 0)).map (applyMN m00 m01 m10 m11 n0 n1) ∧
    points (draw_level affine d m00 m01 m10 m11 n0 n1) =
      (points (draw_level affine d 1 0 0 1 0 0)).map (applyMN m00 m01 m10 m11 n0 n1) ∧
    points (draw_level affine d m00 m01 m10 m11 n0 n1) =
      ((words affine d).flatMap fun w =>
        affine.map fun t => applyMN m00 m01 m10 m11 n0 n1 (applyWord w t.stat)) ∧
    vertices (draw_level affine d m00 m01 m10 m11 n0 n1) =
      ((words affine d).flatMap fun w => polyVertices
        (affine.map fun t => applyMN m00 m01 m10 m11 n0 n1 (applyWord w t.stat))) ∧
    ∀ (xwin ywin scale_factor : ℚ) (modelview : List GLOp),
      vertices (draw_level affine d m00 m01 m10 m11 n0 n1) =
        (vertices (Display affine
          { num_levels := d, xwin := xwin, ywin := ywin, scale_factor := scale_factor,
            modelview := modelview })).map (applyMN m00 m01 m10 m11 n0 n1) := by
  have hv : vertices (draw_level affine d m00 m01 m10 m11 n0 n1) =
      (vertices (draw_level affine d 1 0 0 1 0 0)).map
        (applyMN m00 m01 m10 m11 n0 n1) := by
    rw [vertices_draw_level, vertices_draw_level, List.map_flatMap]
    simp only [← polyVertices_map, ← leafPoints_map]
  refine ⟨hv, ?_, ?_, ?_, ?_⟩
  · rw [points_draw_level, points_draw_level, List.map_flatMap]
    simp only [← leafPoints_map]
  · rw [points_draw_level]; rfl
  · rw [vertices_draw_level]; rfl
  · intro xwin ywin scale_factor modelview
    rw [hv, Display, Int.toNat_ofNat]

/-! ## Properties of the input handlers -/

lemma Key_scale_factor (key : Nat) (s : State) : (Key key s).scale_factor = s.scale_factor := by
  unfold Key
  split_ifs <;> rfl

lemma Key_num_levels_nonneg (key : Nat) (s : State) (h : 0 ≤ s.num_levels) :
    0 ≤ (Key key s).num_levels := by
  unfold Key
  split_ifs <;> first | exact h | (dsimp only; omega)

lemma Special_num_levels (K : GlutKeys) (key : Int) (s : State) :
    (Special K key s).num_levels = s.num_levels := by
  unfold Special
  split_ifs <;> rfl

lemma Special_scale_factor_pos (K : GlutKeys) (key : Int) (s : State)
    (h : 0 < s.scale_factor) : 0 < (Special K key s).scale_factor := by
  unfold Special
  split_ifs <;> first | exact h | (dsimp only; positivity)

lemma step_scale_factor_pos (K : GlutKeys) (s : State) (ev : Input)
    (h : 0 < s.scale_factor) : 0 < (step K s ev).scale_factor := by
  cases ev with
  | key k => simpa only [step, Key_scale_factor] using h
  | special k => exact Special_scale_factor_pos K k s h
  | reshape w h' => exact h

lemma step_num_levels_nonneg (K : GlutKeys) (s : State) (ev : Input)
    (h : 0 ≤ s.num_levels) : 0 ≤ (step K s ev).num_levels := by
  cases ev with
  | key k => exact Key_num_levels_nonneg k s h
  | special k => simpa only [step, Special_num_levels] using h
  | reshape w h' => exact h

lemma run_append (K : GlutKeys) (s : State) (evs : List Input) (ev : Input) :
    run K s (evs ++ [ev]) = step K (run K s evs) ev := by
  simp [run]

/-- The recursion depth handed to `draw_level` by `Display` is never negative. -/
lemma num_levels_nonneg (K : GlutKeys) (evs : List Input) :
    0 ≤ (run K State.init evs).num_levels := by
  induction evs using List.reverseRecOn with
  | nil => simp [run, State.init]
  | append_singleton evs ev ih => rw [run_append]; exact step_num_levels_nonneg K _ ev ih

lemma scale_factor_pos (K : GlutKeys) (evs : List Input) :
    0 < (run K State.init evs).scale_factor := by
  induction evs using List.reverseRecOn with
  | nil => simp [run, State.init]
  | append_singleton evs ev ih => rw [run_append]; exact step_scale_factor_pos K _ ev ih

/-- C6: in a state with recursion depth `d ≥ 0`, the `'-'` key leaves the depth at
`d - 1` when `d > 0` and at `0` when `d = 0`; the new depth is never negative and
nothing else in the state changes. -/
theorem Key_minus_clamps (s : State) (hd : 0 ≤ s.num_levels) :
    (Key 45 s).num_levels = (if s.num_levels > 0 then s.num_levels - 1 else 0) ∧
    0 ≤ (Key 45 s).num_levels ∧
    (s.num_levels = 0 → Key 45 s = s) ∧
    Key 45 s = { s with num_levels := (Key 45 s).num_levels } := by
  unfold Key
  simp only [show ¬ ((45 : Nat) = 27) by decide, show ¬ ((45 : Nat) = 43) by decide, if_false,
    if_true]
  by_cases h : s.num_levels > 0
  · simp only [if_pos h]
    exact ⟨trivial, by omega, fun h0 => by omega, trivial⟩
  · have h0 : s.num_levels = 0 := by omega
    simp only [if_neg h]
    exact ⟨h0, hd, fun _ => trivial, trivial⟩

/-- Instance of C6: `'-'` at depth 0 (the initial state) leaves depth 0, and at
depth 3 gives depth 2. -/
theorem Key_minus_clamps_witness :
    ((0 : Int) ≤ State.init.num_levels ∧ (Key 45 State.init).num_levels = 0) ∧
    ((0 : Int) ≤ (3 : Int) ∧
      (Key 45 { State.init with num_levels := 3 }).num_levels = 2) := by
  refine ⟨⟨by decide, ?_⟩, ⟨by decide, ?_⟩⟩
  · exact (Key_minus_clamps State.init (by decide)).1.trans (by decide)
  · exact (Key_minus_clamps { State.init with num_levels := 3 } (by decide)).1.trans
      (by decide)

/-- C9: from the initial state (`scale_factor = 1`) the scale factor is positive after
every finite sequence of `Key`, `Special` and `Reshape` events.  `Special` multiplies
it by `0.8` on page-up and by `1.25` on page-down and leaves it alone on every other
key; `Key` and `Reshape` never change it. -/
theorem scale_factor_invariant (K : GlutKeys) (evs : List Input) :
    State.init.scale_factor = 1 ∧
    0 < (run K State.init evs).scale_factor ∧
    (K.Distinct → ∀ s : State,
      (Special K K.GLUT_KEY_PAGE_UP s).scale_factor = s.scale_factor * (4 / 5) ∧
      (Special K K.GLUT_KEY_PAGE_DOWN s).scale_factor = s.scale_factor * (5 / 4)) ∧
    (∀ (key : Int) (s : State), key ≠ K.GLUT_KEY_PAGE_UP → key ≠ K.GLUT_KEY_PAGE_DOWN →
      (Special K key s).scale_factor = s.scale_factor) ∧
    (∀ (key : Nat) (s : State), (Key key s).scale_factor = s.scale_factor) ∧
    ∀ (w h : Int) (s : State), (Reshape w h s).scale_factor = s.scale_factor := by
  refine ⟨rfl, scale_factor_pos K evs, ?_, ?_, Key_scale_factor, fun _ _ _ => rfl⟩
  · intro hK s
    simp only [GlutKeys.Distinct, List.nodup_cons, List.mem_cons, List.mem_singleton,
      not_or, List.not_mem_nil, not_false_eq_true, List.nodup_nil, and_true] at hK
    obtain ⟨⟨-, -, -, h1, h1'⟩, ⟨-, -, h2, h2'⟩, ⟨-, h3, h3'⟩, ⟨h4, h4'⟩, h5⟩ := hK
    constructor
    · unfold Special
      rw [if_neg (Ne.symm h1), if_neg (Ne.symm h2), if_neg (Ne.symm h3),
        if_neg (Ne.symm h4), if_pos rfl]
    · unfold Special
      rw [if_neg (Ne.symm h1'), if_neg (Ne.symm h2'), if_neg (Ne.symm h3'),
        if_neg (Ne.symm h4'), if_neg (Ne.symm h5), if_pos rfl]
  · intro key s hu hd
    unfold Special
    split_ifs <;> rfl

/-- Instance of C9 with the key codes of the GLUT API: two page-ups, a reset, a
page-down and an arrow key leave the scale factor `0.8 * 0.8 * 1.25 = 0.8 > 0`. -/
theorem scale_factor_invariant_witness :
    glutKeys.Distinct ∧
    0 < (run glutKeys State.init [Input.special 104, Input.special 104, Input.key 114,
      Input.special 105, Input.special 101]).scale_factor ∧
    (run glutKeys State.init [Input.special 104, Input.special 104, Input.key 114,
      Input.special 105, Input.special 101]).scale_factor = 4 / 5 ∧
    (Special glutKeys 104 State.init).scale_factor = State.init.scale_factor * (4 / 5) ∧
    (Special glutKeys 105 State.init).scale_factor = State.init.scale_factor * (5 / 4) ∧
    (Special glutKeys 101 State.init).scale_factor = State.init.scale_factor := by
  have h := scale_factor_invariant glutKeys [Input.special 104, Input.special 104,
    Input.key 114, Input.special 105, Input.special 101]
  have hK : glutKeys.Distinct := by decide
  refine ⟨hK, h.2.1, ?_, (h.2.2.1 hK State.init).1, (h.2.2.1 hK State.init).2,
    h.2.2.2.1 101 State.init (by decide) (by decide)⟩
  simp [run, step, Special, Key, glutKeys, State.init]
  norm_num

/-- C8, evaluated: `'r'` and `'R'` set `xwin = -1`, `ywin = 0`, reload the model-view
matrix exactly as `Reshape` does and keep the recursion depth, but they leave
`scale_factor` as it is.  After `Reshape`, one page-up and `'r'` the model-view matrix
and the pan offsets are those of the state right after `Reshape`, while
`scale_factor` is `0.8`, not `1`; the next up-arrow then moves the view by `0.08`
instead of the `0.1` it moves right after `Reshape`. -/
theorem Key_r_keeps_scale_factor :
    (∀ s : State, Key 82 s = Key 114 s ∧
      (Key 114 s).xwin = -1 ∧ (Key 114 s).ywin = 0 ∧
      (Key 114 s).num_levels = s.num_levels ∧
      (Key 114 s).modelview = (Reshape 500 250 s).modelview ∧
      (Key 114 s).scale_factor = s.scale_factor) ∧
    (Reshape 500 250 State.init).scale_factor = 1 ∧
    (run glutKeys State.init
      [Input.reshape 500 250, Input.special 104, Input.key 114]).scale_factor = 4 / 5 ∧
    (run glutKeys State.init
      [Input.reshape 500 250, Input.special 104, Input.key 114]).scale_factor ≠
        (Reshape 500 250 State.init).scale_factor ∧
    (run glutKeys State.init
      [Input.reshape 500 250, Input.special 104, Input.key 114]).xwin =
        (Reshape 500 250 State.init).xwin ∧
    (run glutKeys State.init
      [Input.reshape 500 250, Input.special 104, Input.key 114]).ywin =
        (Reshape 500 250 State.init).ywin ∧
    (run glutKeys State.init
      [Input.reshape 500 250, Input.special 104, Input.key 114]).modelview =
        (Reshape 500 250 State.init).modelview ∧
    (Special glutKeys 101 (Reshape 500 250 State.init)).modelview =
      [GLOp.translate (-1) 0 (-5), GLOp.translate 0 (1 / 10) 0] ∧
    (Special glutKeys 101 (run glutKeys State.init
      [Input.reshape 500 250, Input.special 104, Input.key 114])).modelview =
      [GLOp.translate (-1) 0 (-5), GLOp.translate 0 (2 / 25) 0] := by
  refine ⟨fun s => ⟨?_, ?_, ?_, ?_, ?_, ?_⟩, ?_, ?_, ?_, ?_, ?_, ?_, ?_, ?_⟩ <;>
    simp [run, step, Special, Key, Reshape, glutKeys, State.init] <;> norm_num

end Fractals
